import Mathlib

/-!
# Verification of the PII fusion and anonymization core

Shallow embedding of `combined_pii_detector.py` (the `CombinedPIIDetector`
fusion/anonymization engine).  Modelling conventions:

* Python strings (sequences of codepoints) are modelled as `List Char`;
  a Lean string literal `"s"` is turned into its codepoint list by `.data`.
* Python floats (the detectors' confidence scores) are modelled as `ℚ`;
  the literals `0.7`, `0.8`, `0.9` play the role of the float literals in
  the comparisons of the source (only order comparisons are performed on
  confidences, never arithmetic, so the embedding is faithful for every
  value whose float ordering agrees with its rational ordering).
* `hashlib.md5(...).hexdigest()` is an external library call; it is
  modelled as an abstract parameter `md5hex : List Char → List Char`
  (the full hexdigest), of which the source takes 8- or 6-character
  slices.
* The detectors (`regex`, `presidio`, `spacy`) are external collaborators
  producing entity candidate lists; the fusion and anonymization
  functions take the candidate list as an explicit parameter.
* Python's stable `list.sort` / `sorted` are modelled by the stable
  `List.insertionSort`.
-/

/-- The `PIIEntity` dataclass of `combined_pii_detector.py`:
`entity_type`, `text`, `start`, `end` (half-open codepoint span),
`confidence`, `source`, and the optional `anonymized_value` attached during
anonymization (defaulting to `None`). -/
structure PIIEntity where
  entity_type : List Char
  text : List Char
  start : Nat
  «end» : Nat
  confidence : ℚ
  source : List Char
  anonymized_value : Option (List Char) := none
deriving Repr, DecidableEq

/-- The overlap test of the sweep loop in `_merge_entities`:
`next_entity.start <= current.end and next_entity.end >= current.start`. -/
def overlapsB (current next_entity : PIIEntity) : Bool :=
  next_entity.start ≤ current.«end» && current.start ≤ next_entity.«end»

/-- The overlap branch of the sweep loop in `_merge_entities`: the entity
with strictly higher confidence contributes `entity_type`, `text` and
`confidence` (ties keep `current`), the span is the union
(`min` of starts, `max` of ends) and the sources are concatenated with
`"+"`, `current` first. -/
def mergeTwo (current next_entity : PIIEntity) : PIIEntity :=
  if next_entity.confidence > current.confidence then
    { entity_type := next_entity.entity_type
      text := next_entity.text
      start := min current.start next_entity.start
      «end» := max current.«end» next_entity.«end»
      confidence := next_entity.confidence
      source := current.source ++ "+".data ++ next_entity.source }
  else
    { entity_type := current.entity_type
      text := current.text
      start := min current.start next_entity.start
      «end» := max current.«end» next_entity.«end»
      confidence := current.confidence
      source := current.source ++ "+".data ++ next_entity.source }

/-- The sweep loop of `_merge_entities`: walk the sorted candidates keeping a
`current` accumulator; merge overlapping candidates into it, flush it to the
output when the next candidate does not overlap. -/
def mergeSweep (current : PIIEntity) : List PIIEntity → List PIIEntity
  | [] => [current]
  | next_entity :: rest =>
    if overlapsB current next_entity then
      mergeSweep (mergeTwo current next_entity) rest
    else
      current :: mergeSweep next_entity rest

/-- The sort relation of `entities.sort(key=lambda x: x.start)`. -/
def startLe (a b : PIIEntity) : Prop := a.start ≤ b.start

instance : DecidableRel startLe := fun a b => Nat.decLe a.start b.start

instance : IsTotal PIIEntity startLe := ⟨fun a b => Nat.le_total a.start b.start⟩

instance : IsTrans PIIEntity startLe := ⟨fun _ _ _ => Nat.le_trans⟩

/-- `_merge_entities`: return `[]` on an empty candidate list, otherwise sort
the candidates by `start` ascending (Python's stable sort, modelled by the
stable `insertionSort`) and run the sweep from the first candidate. -/
def mergeEntities (entities : List PIIEntity) : List PIIEntity :=
  match List.insertionSort startLe entities with
  | [] => []
  | first :: rest => mergeSweep first rest

/-- The state of the caller's list object after `_merge_entities` returns:
`entities.sort(key=lambda x: x.start)` reorders the Python list in place
(the early return for an empty list fires before the sort). -/
def mergeEntitiesPost (entities : List PIIEntity) : List PIIEntity :=
  if entities.isEmpty then entities else List.insertionSort startLe entities

/-- Python `s.upper()` on `entity_type` (codepoint-wise upper-casing). -/
def pyUpper (s : List Char) : List Char := s.map Char.toUpper

/-- Python `s[-n:]` (the last `n` codepoints; the whole string when
`len(s) <= n`). -/
def pyLast (s : List Char) (n : Nat) : List Char := s.drop (s.length - n)

/-- Python `original.split('@')`. -/
def pySplitOn (c : Char) (s : List Char) : List (List Char) :=
  List.splitOnP (· == c) s

/-- Python `original.split()`: split on whitespace, dropping empty pieces. -/
def pySplitWs (s : List Char) : List (List Char) :=
  (List.splitOnP (fun c => c.isWhitespace) s).filter (fun w => !w.isEmpty)

/-- `_adaptive_anonymization`.  Python's implicit `return None` paths — a
confidence above `0.9` whose `entity_type` matches none of the four special
groups, and the email branch when splitting on `'@'` does not yield exactly
two parts — are modelled as `none`.  (In the person branch the source indexes
`original[0]` / `words[0][0]`, which raises in Python only on input text the
guards make unreachable for nonempty entity text; `List.take 1` is used for
those single-character slices.) -/
def adaptiveAnonymization (md5hex : List Char → List Char) (entity : PIIEntity) :
    Option (List Char) :=
  let original := entity.text
  let entity_type := entity.entity_type
  let confidence := entity.confidence
  if 0.9 < confidence then
    if entity_type = "email".data ∨ entity_type = "email_address".data then
      match pySplitOn '@' original with
      | [p0, p1] => some (p0.take 2 ++ "***@".data ++ p1)
      | _ => none
    else if entity_type = "phone".data ∨ entity_type = "phone_number".data then
      some ("***-***-".data ++ pyLast original 4)
    else if entity_type = "person".data ∨ entity_type = "person_name".data then
      let words := pySplitWs original
      if 1 < words.length then
        some ((words.headD []).take 1 ++ "*** ".data ++ (words.getLastD []).take 1
              ++ "***".data)
      else
        some (original.take 1 ++ "***".data)
    else if entity_type = "credit_card".data then
      some ("****-****-****-".data ++ pyLast original 4)
    else
      none
  else if 0.7 < confidence then
    some ("[".data ++ pyUpper entity_type ++ "_".data ++ (md5hex original).take 6
          ++ "]".data)
  else
    some ("[".data ++ pyUpper entity_type ++ "_POSSIBLE]".data)

/-- The per-entity replacement computed by the strategy dispatch inside the
`anonymize_text` loop.  Every branch but `adaptive` always yields a
replacement; an unrecognized strategy lands in the final `else` with the
placeholder format. -/
def anonymizeValue (md5hex : List Char → List Char) (strategy : List Char)
    (entity : PIIEntity) : Option (List Char) :=
  let original := entity.text
  let entity_type := entity.entity_type
  if strategy = "adaptive".data then
    adaptiveAnonymization md5hex entity
  else if strategy = "hash".data then
    some ("[".data ++ pyUpper entity_type ++ "_".data ++ (md5hex original).take 8
          ++ "]".data)
  else if strategy = "placeholder".data then
    some ("[".data ++ pyUpper entity_type ++ "_REDACTED]".data)
  else if strategy = "mask".data then
    some (if 4 < original.length then
            original.take 2 ++ List.replicate (original.length - 4) '*'
              ++ pyLast original 2
          else
            List.replicate original.length '*')
  else
    some ("[".data ++ pyUpper entity_type ++ "_REDACTED]".data)

/-- Python slice replacement
`anonymized_text[:start] + anonymized + anonymized_text[end:]`. -/
def replaceSlice (t : List Char) (s e : Nat) (r : List Char) : List Char :=
  t.take s ++ r ++ t.drop e

/-- The sort relation of `sorted(entities, key=lambda x: x.start, reverse=True)`. -/
def startGe (a b : PIIEntity) : Prop := b.start ≤ a.start

instance : DecidableRel startGe := fun a b => Nat.decLe b.start a.start

instance : IsTotal PIIEntity startGe := ⟨fun a b => Nat.le_total b.start a.start⟩

instance : IsTrans PIIEntity startGe := ⟨fun _ _ _ h h' => Nat.le_trans h' h⟩

/-- The `mapping` dict of `anonymize_text`, keyed by the entity's original
text value; the stored value may itself be `None` (adaptive strategy). -/
def Mapping : Type := List Char → Option (Option (List Char))

/-- One iteration of the `anonymize_text` loop on the (text buffer, mapping)
state: compute the entity's replacement, splice it into the buffer at
`[start, end)` when it is not `None`, and record it in `mapping[original]`. -/
def anonymizeStep (md5hex : List Char → List Char) (strategy : List Char)
    (acc : List Char × Mapping) (entity : PIIEntity) : List Char × Mapping :=
  let anonymized := anonymizeValue md5hex strategy entity
  (match anonymized with
   | some a => replaceSlice acc.1 entity.start entity.«end» a
   | none => acc.1,
   fun k => if k = entity.text then some anonymized else acc.2 k)

/-- The substitution loop of `anonymize_text`: entities sorted by `start`
descending (Python's stable `sorted(..., reverse=True)`), then the loop body
`anonymizeStep` is folded over them.  Detection is an external collaborator,
so the (merged) entity list is a parameter. -/
def anonymizeText (md5hex : List Char → List Char) (text : List Char)
    (entities : List PIIEntity) (strategy : List Char) : List Char × Mapping :=
  let entities_sorted := List.insertionSort startGe entities
  entities_sorted.foldl (anonymizeStep md5hex strategy) (text, fun _ => none)

/-! ## Sample entities used by concrete witnesses and counterexamples -/

/-- A high-confidence entity whose `entity_type` matches none of the four
special groups of the adaptive strategy. -/
def ssnEntity : PIIEntity :=
  { entity_type := "ssn".data, text := "123-45-6789".data, start := 46, «end» := 57,
    confidence := 0.95, source := "regex".data }

/-- The confidence of `ssnEntity` clears the `0.9` adaptive threshold. -/
theorem ssnEntity_conf : (0.9 : ℚ) < ssnEntity.confidence := by
  norm_num [ssnEntity]

/-- A candidate with an invalid span (`start >= end`). -/
def invalidSpanEntity : PIIEntity :=
  { entity_type := "person".data, text := "Bob".data, start := 3, «end» := 1,
    confidence := 1, source := "regex".data }

/-! ## C7: mask policy length invariant -/

/-- C7: under the `mask` policy the anonymized value always has the same
length as the original text: when `len(original) > 4` the first two and last
two characters are kept and the middle is replaced by `len - 4` asterisks,
otherwise every character is replaced by an asterisk; in both cases
`len(anonymized) = len(original)`. -/
theorem mask_length_invariant (md5hex : List Char → List Char)
    (entity : PIIEntity) :
    (anonymizeValue md5hex ("mask".data) entity).map List.length
      = some entity.text.length := by
  simp only [anonymizeValue]
  rw [if_neg (by decide), if_neg (by decide), if_neg (by decide), if_pos trivial]
  rcases Nat.lt_or_ge 4 entity.text.length with h | h
  · rw [if_pos h]
    simp only [Option.map_some', Option.some.injEq, List.length_append,
      List.length_replicate, pyLast, List.length_drop]
    rw [List.length_take_of_le (by omega)]
    omega
  · rw [if_neg (Nat.not_lt.mpr h)]
    simp

/-! ## C9: unknown strategy falls back to placeholder -/

/-- C9: an unrecognized strategy name is not an error: the final `else` of
the dispatch gives every entity the placeholder replacement
`"[" ++ TYPE_UPPER ++ "_REDACTED]"`, identical to the `placeholder`
strategy's behaviour. -/
theorem unknown_strategy_defaults_to_placeholder (md5hex : List Char → List Char)
    (strategy : List Char) (entity : PIIEntity)
    (h1 : strategy ≠ "adaptive".data) (h2 : strategy ≠ "hash".data)
    (h3 : strategy ≠ "placeholder".data) (h4 : strategy ≠ "mask".data) :
    anonymizeValue md5hex strategy entity
        = some ("[".data ++ pyUpper entity.entity_type ++ "_REDACTED]".data)
      ∧ anonymizeValue md5hex strategy entity
        = anonymizeValue md5hex ("placeholder".data) entity := by
  constructor
  · simp only [anonymizeValue]
    rw [if_neg h1, if_neg h2, if_neg h3, if_neg h4]
  · simp only [anonymizeValue]
    rw [if_neg h1, if_neg h2, if_neg h3, if_neg h4]
    simp

/-- Witness for C9 at the concrete unrecognized strategy name `"redact"`. -/
theorem unknown_strategy_defaults_to_placeholder_witness :
    ("redact".data ≠ "adaptive".data ∧ "redact".data ≠ "hash".data
      ∧ "redact".data ≠ "placeholder".data ∧ "redact".data ≠ "mask".data)
    ∧ (anonymizeValue (fun _ => []) ("redact".data) ssnEntity
        = some ("[".data ++ pyUpper ssnEntity.entity_type ++ "_REDACTED]".data)
      ∧ anonymizeValue (fun _ => []) ("redact".data) ssnEntity
        = anonymizeValue (fun _ => []) ("placeholder".data) ssnEntity) :=
  ⟨⟨by decide, by decide, by decide, by decide⟩,
    unknown_strategy_defaults_to_placeholder (fun _ => []) ("redact".data) ssnEntity
      (by decide) (by decide) (by decide) (by decide)⟩

/-! ## C4: semantics of one overlap step of the fusion sweep -/

/-- C4: for an overlapping pair `current`/`next_entity` in the sweep, the
merged accumulator takes `entity_type`, `text` and `confidence` from the
strictly-higher-confidence side (ties keep `current`), `start` is the `min`
of the starts, `end` the `max` of the ends, and `source` is always
`current.source + "+" + next_entity.source` in that order; the merged `text`
is copied from the winner (never recomputed from the union range); and this
is exactly the step the sweep loop performs on an overlap. -/
theorem merge_overlap_step (current next_entity : PIIEntity)
    (h : overlapsB current next_entity = true) :
    (mergeTwo current next_entity).start = min current.start next_entity.start
    ∧ (mergeTwo current next_entity).«end» = max current.«end» next_entity.«end»
    ∧ (mergeTwo current next_entity).source
        = current.source ++ "+".data ++ next_entity.source
    ∧ (next_entity.confidence > current.confidence →
        (mergeTwo current next_entity).entity_type = next_entity.entity_type
        ∧ (mergeTwo current next_entity).text = next_entity.text
        ∧ (mergeTwo current next_entity).confidence = next_entity.confidence)
    ∧ (¬ next_entity.confidence > current.confidence →
        (mergeTwo current next_entity).entity_type = current.entity_type
        ∧ (mergeTwo current next_entity).text = current.text
        ∧ (mergeTwo current next_entity).confidence = current.confidence)
    ∧ ∀ rest, mergeSweep current (next_entity :: rest)
        = mergeSweep (mergeTwo current next_entity) rest := by
  refine ⟨?_, ?_, ?_, ?_, ?_, ?_⟩
  · unfold mergeTwo; split <;> rfl
  · unfold mergeTwo; split <;> rfl
  · unfold mergeTwo; split <;> rfl
  · intro hc; unfold mergeTwo; rw [if_pos hc]; exact ⟨rfl, rfl, rfl⟩
  · intro hc; unfold mergeTwo; rw [if_neg hc]; exact ⟨rfl, rfl, rfl⟩
  · intro rest; simp only [mergeSweep]; rw [if_pos h]

/-- A sample `current` accumulator for the overlap-step witness. -/
def currentSample : PIIEntity :=
  { entity_type := "person_name".data, text := "John Smith".data, start := 8,
    «end» := 18, confidence := 0.6, source := "regex".data }

/-- A sample overlapping `next_entity` for the overlap-step witness. -/
def nextSample : PIIEntity :=
  { entity_type := "person".data, text := "John".data, start := 8,
    «end» := 12, confidence := 0.95, source := "spacy".data }

/-- Witness for C4 at a concrete overlapping pair. -/
theorem merge_overlap_step_witness :
    overlapsB currentSample nextSample = true
    ∧ ((mergeTwo currentSample nextSample).start
          = min currentSample.start nextSample.start
      ∧ (mergeTwo currentSample nextSample).«end»
          = max currentSample.«end» nextSample.«end»
      ∧ (mergeTwo currentSample nextSample).source
          = currentSample.source ++ "+".data ++ nextSample.source
      ∧ (nextSample.confidence > currentSample.confidence →
          (mergeTwo currentSample nextSample).entity_type = nextSample.entity_type
          ∧ (mergeTwo currentSample nextSample).text = nextSample.text
          ∧ (mergeTwo currentSample nextSample).confidence = nextSample.confidence)
      ∧ (¬ nextSample.confidence > currentSample.confidence →
          (mergeTwo currentSample nextSample).entity_type = currentSample.entity_type
          ∧ (mergeTwo currentSample nextSample).text = currentSample.text
          ∧ (mergeTwo currentSample nextSample).confidence = currentSample.confidence)
      ∧ ∀ rest, mergeSweep currentSample (nextSample :: rest)
          = mergeSweep (mergeTwo currentSample nextSample) rest) :=
  ⟨by decide, merge_overlap_step currentSample nextSample (by decide)⟩

/-! ## C2: adaptive policy, high confidence, unmatched entity type -/

/-- C2 (counterexample): at a concrete entity of type `"ssn"` with
confidence `0.95` — above `0.9` and matching none of the four special
groups — `_adaptive_anonymization` returns `None`; in particular the result
is not the hash-tier value `"[SSN_" + first6hexchars(md5(original)) + "]"`
the claim requires (here with a concrete stand-in hexdigest function). -/
theorem adaptive_unmatched_not_hash_cex :
    adaptiveAnonymization (fun _ => "0123456789abcdef0123456789abcdef".data)
        ssnEntity = none
    ∧ adaptiveAnonymization (fun _ => "0123456789abcdef0123456789abcdef".data)
        ssnEntity
      ≠ some ("[".data ++ pyUpper ssnEntity.entity_type ++ "_".data
          ++ ((fun _ : List Char => "0123456789abcdef0123456789abcdef".data)
                ssnEntity.text).take 6 ++ "]".data) := by
  have h : adaptiveAnonymization
      (fun _ => "0123456789abcdef0123456789abcdef".data) ssnEntity = none := by
    simp only [adaptiveAnonymization]
    rw [if_pos ssnEntity_conf]
    decide
  refine ⟨h, ?_⟩
  rw [h]
  exact fun hco => Option.noConfusion hco

/-- C2 (amended): under the adaptive policy, an entity with confidence above
`0.9` whose `entity_type` matches none of the type-specific groups
(email/email_address, phone/phone_number, person/person_name, credit_card)
gets NO replacement: `_adaptive_anonymization` falls off the end of the
`confidence > 0.9` branch and implicitly returns `None`; the hash-tier
format is only reachable when `0.7 < confidence <= 0.9`. -/
theorem adaptive_unmatched_type_returns_none (md5hex : List Char → List Char)
    (entity : PIIEntity) (hconf : (0.9 : ℚ) < entity.confidence)
    (h1 : entity.entity_type ≠ "email".data)
    (h2 : entity.entity_type ≠ "email_address".data)
    (h3 : entity.entity_type ≠ "phone".data)
    (h4 : entity.entity_type ≠ "phone_number".data)
    (h5 : entity.entity_type ≠ "person".data)
    (h6 : entity.entity_type ≠ "person_name".data)
    (h7 : entity.entity_type ≠ "credit_card".data) :
    adaptiveAnonymization md5hex entity = none := by
  simp only [adaptiveAnonymization]
  rw [if_pos hconf, if_neg (not_or.mpr ⟨h1, h2⟩), if_neg (not_or.mpr ⟨h3, h4⟩),
    if_neg (not_or.mpr ⟨h5, h6⟩), if_neg h7]

/-- Witness for the amended C2 at the concrete `ssn` entity. -/
theorem adaptive_unmatched_type_returns_none_witness :
    ((0.9 : ℚ) < ssnEntity.confidence
      ∧ ssnEntity.entity_type ≠ "email".data
      ∧ ssnEntity.entity_type ≠ "email_address".data
      ∧ ssnEntity.entity_type ≠ "phone".data
      ∧ ssnEntity.entity_type ≠ "phone_number".data
      ∧ ssnEntity.entity_type ≠ "person".data
      ∧ ssnEntity.entity_type ≠ "person_name".data
      ∧ ssnEntity.entity_type ≠ "credit_card".data)
    ∧ adaptiveAnonymization (fun _ => []) ssnEntity = none :=
  ⟨⟨ssnEntity_conf, by decide, by decide, by decide, by decide, by decide,
      by decide, by decide⟩,
    adaptive_unmatched_type_returns_none (fun _ => []) ssnEntity ssnEntity_conf
      (by decide) (by decide) (by decide) (by decide) (by decide) (by decide)
      (by decide)⟩

/-! ## C3: invalid spans are not rejected -/

/-- C3 (counterexample): the candidate `invalidSpanEntity` has
`start = 3 >= 1 = end`, yet fusion returns it unchanged (it is not rejected
or skipped: it is a member of the merge output), and anonymization attempts
the slice substitution at the invalid span, producing a changed buffer
(`"hel" + "[PERSON_REDACTED]" + "ello"` on the five-character text
`"hello"`) rather than skipping the candidate; no validation failure exists
anywhere in the result. -/
theorem invalid_span_not_rejected_cex :
    invalidSpanEntity.start ≥ invalidSpanEntity.«end»
    ∧ mergeEntities [invalidSpanEntity] = [invalidSpanEntity]
    ∧ invalidSpanEntity ∈ mergeEntities [invalidSpanEntity]
    ∧ (anonymizeText (fun _ => []) ("hello".data) [invalidSpanEntity]
        ("placeholder".data)).1 ≠ "hello".data
    ∧ (anonymizeText (fun _ => []) ("hello".data) [invalidSpanEntity]
        ("placeholder".data)).1
      = "hel".data ++ "[PERSON_REDACTED]".data ++ "ello".data := by
  refine ⟨by decide, rfl, ?_, by decide, by decide⟩
  exact List.mem_singleton_self invalidSpanEntity

/-- C3 (amended): neither fusion nor anonymization validates candidate
spans.  Any single candidate — whatever its span — passes through
`_merge_entities` unchanged, and `anonymize_text` applies the slice
substitution at `[start, end)` (with Python's clamping slice semantics)
whenever the strategy yields a replacement; no validation failure is
surfaced to the caller. -/
theorem no_span_validation (c : PIIEntity) (md5hex : List Char → List Char)
    (t : List Char) (strategy : List Char) :
    mergeEntities [c] = [c]
    ∧ (anonymizeText md5hex t [c] strategy).1
      = (match anonymizeValue md5hex strategy c with
         | some a => replaceSlice t c.start c.«end» a
         | none => t) := by
  exact ⟨rfl, rfl⟩

/-! ## C8: mapping is last-write-wins -/

/-- The mapping component of the `anonymize_text` fold: looking up `v` gives
the replacement computed for the last processed entity whose text is `v`,
or the initial mapping's answer when no processed entity has text `v`. -/
theorem foldl_anonymizeStep_mapping (md5hex : List Char → List Char)
    (strategy : List Char) (v : List Char) :
    ∀ (ds : List PIIEntity) (t0 : List Char) (m0 : Mapping),
      (ds.foldl (anonymizeStep md5hex strategy) (t0, m0)).2 v
        = match ds.reverse.find? (fun e => e.text == v) with
          | some e => some (anonymizeValue md5hex strategy e)
          | none => m0 v := by
  intro ds
  induction ds with
  | nil => intro t0 m0; rfl
  | cons e rest ih =>
    intro t0 m0
    rw [List.foldl_cons, ih, List.reverse_cons, List.find?_append]
    cases hf : rest.reverse.find? (fun e => e.text == v) with
    | some e' => rfl
    | none =>
      rw [Option.none_or, List.find?_singleton]
      by_cases hv : v = e.text
      · rw [if_pos (by simp [hv])]
        simp [anonymizeStep, hv]
      · rw [if_neg (by simp; exact fun hco => absurd hco.symm hv)]
        simp [anonymizeStep, hv]

/-- C8: in the mapping returned by `anonymize_text`, a value `v` that is
anonymized more than once maps to the replacement of the LAST processed
occurrence (processing order is descending `start`): the lookup equals the
first hit in the reversed processing order, so later writes overwrite
earlier ones. -/
theorem mapping_last_write_wins (md5hex : List Char → List Char)
    (t : List Char) (entities : List PIIEntity) (strategy : List Char)
    (v : List Char) :
    (anonymizeText md5hex t entities strategy).2 v
      = ((List.insertionSort startGe entities).reverse.find?
            (fun e => e.text == v)).map
          (fun e => anonymizeValue md5hex strategy e) := by
  unfold anonymizeText
  rw [foldl_anonymizeStep_mapping]
  cases hf : (List.insertionSort startGe entities).reverse.find?
      (fun e => e.text == v) with
  | some e => rfl
  | none => rfl

/-! ## C10: the fusion merge reorders the caller's list in place -/

/-- C10: for a non-empty candidate list, `entities.sort(key=lambda x:
x.start)` inside `_merge_entities` leaves the caller's list sorted ascending
by `start` as a side effect; the list after the call is a permutation of the
original records (the records themselves are not mutated, only reordered). -/
theorem merge_sorts_callers_list (entities : List PIIEntity)
    (h : entities ≠ []) :
    List.Sorted startLe (mergeEntitiesPost entities)
      ∧ List.Perm (mergeEntitiesPost entities) entities := by
  unfold mergeEntitiesPost
  rw [if_neg (by simp [h])]
  exact ⟨List.sorted_insertionSort startLe entities,
    List.perm_insertionSort startLe entities⟩

/-- Witness for C10 at a concrete out-of-order two-element list. -/
theorem merge_sorts_callers_list_witness :
    ([ssnEntity, currentSample] : List PIIEntity) ≠ []
    ∧ (List.Sorted startLe (mergeEntitiesPost [ssnEntity, currentSample])
       ∧ List.Perm (mergeEntitiesPost [ssnEntity, currentSample])
           [ssnEntity, currentSample]) :=
  ⟨by decide, merge_sorts_callers_list [ssnEntity, currentSample] (by decide)⟩

/-! ## Structural lemmas about the fusion sweep -/

/-- The sweep's overlap test, as a proposition. -/
theorem overlapsB_eq_true_iff (c n : PIIEntity) :
    overlapsB c n = true ↔ n.start ≤ c.«end» ∧ c.start ≤ n.«end» := by
  simp [overlapsB]

/-- Negation of the sweep's overlap test. -/
theorem overlapsB_eq_false_iff (c n : PIIEntity) :
    overlapsB c n = false ↔ c.«end» < n.start ∨ n.«end» < c.start := by
  simp [overlapsB]
  omega

/-- The merged span's start is the minimum of the two starts. -/
theorem mergeTwo_start (c n : PIIEntity) :
    (mergeTwo c n).start = min c.start n.start := by
  unfold mergeTwo; split <;> rfl

/-- The merged span's end is the maximum of the two ends. -/
theorem mergeTwo_end (c n : PIIEntity) :
    (mergeTwo c n).«end» = max c.«end» n.«end» := by
  unfold mergeTwo; split <;> rfl

/-- Shape of the sweep output: it is nonempty, its head keeps the
accumulator's `start`, the head's `end` is at least the accumulator's `end`,
and an accumulator with `end < start` can never merge again, so it is
returned unchanged as the head. -/
theorem mergeSweep_head (current : PIIEntity) (xs : List PIIEntity)
    (hs : ∀ x ∈ xs, current.start ≤ x.start) :
    ∃ m tail, mergeSweep current xs = m :: tail
      ∧ m.start = current.start ∧ current.«end» ≤ m.«end»
      ∧ (current.«end» < current.start → m = current) := by
  induction xs generalizing current with
  | nil => exact ⟨current, [], rfl, rfl, le_refl _, fun _ => rfl⟩
  | cons next_entity rest ih =>
    by_cases h : overlapsB current next_entity
    · have hnx : current.start ≤ next_entity.start :=
        hs next_entity (List.mem_cons_self _ _)
      have hov := (overlapsB_eq_true_iff current next_entity).mp h
      have hvalid : current.start ≤ current.«end» := le_trans hnx hov.1
      obtain ⟨m, tail, heq, hstart, hend, -⟩ :=
        ih (mergeTwo current next_entity) (fun x hx => by
          rw [mergeTwo_start]
          exact le_trans (min_le_left _ _) (hs x (List.mem_cons_of_mem _ hx)))
      refine ⟨m, tail, ?_, ?_, ?_, ?_⟩
      · simp only [mergeSweep]; rw [if_pos h]; exact heq
      · rw [hstart, mergeTwo_start]
        exact min_eq_left hnx
      · refine le_trans ?_ hend
        rw [mergeTwo_end]
        exact le_max_left _ _
      · intro hlt
        exact absurd hvalid (by omega)
    · refine ⟨current, mergeSweep next_entity rest, ?_, rfl, le_refl _, fun _ => rfl⟩
      simp only [mergeSweep]; rw [if_neg h]

/-- The sweep output is sorted by `start`, and consecutive outputs never
satisfy the overlap predicate (no validity assumption on the input spans
is needed). -/
theorem mergeSweep_sorted_chain (current : PIIEntity) (xs : List PIIEntity)
    (hsort : List.Sorted startLe (current :: xs)) :
    List.Sorted startLe (mergeSweep current xs)
    ∧ List.Chain' (fun a b => overlapsB a b = false) (mergeSweep current xs) := by
  induction xs generalizing current with
  | nil => constructor <;> simp [mergeSweep]
  | cons next_entity rest ih =>
    rw [List.sorted_cons] at hsort
    obtain ⟨hall, hsort'⟩ := hsort
    simp only [mergeSweep]
    by_cases h : overlapsB current next_entity
    · rw [if_pos h]
      apply ih (mergeTwo current next_entity)
      rw [List.sorted_cons]
      refine ⟨?_, (List.sorted_cons.mp hsort').2⟩
      intro b hb
      have h1 : next_entity.start ≤ b.start := (List.sorted_cons.mp hsort').1 b hb
      show (mergeTwo current next_entity).start ≤ b.start
      rw [mergeTwo_start]
      exact le_trans (min_le_right _ _) h1
    · rw [if_neg h]
      obtain ⟨ihs, ihc⟩ := ih next_entity hsort'
      obtain ⟨m, tail, heq, hmstart, hmend, hminv⟩ :=
        mergeSweep_head next_entity rest (fun x hx =>
          (List.sorted_cons.mp hsort').1 x hx)
      have hcn : current.start ≤ next_entity.start :=
        hall next_entity (List.mem_cons_self _ _)
      constructor
      · rw [List.sorted_cons]
        refine ⟨?_, ihs⟩
        intro b hb
        rw [heq] at hb ihs
        have hmb : m.start ≤ b.start := by
          rcases List.mem_cons.mp hb with rfl | hb'
          · exact le_refl _
          · exact (List.sorted_cons.mp ihs).1 b hb'
        show current.start ≤ b.start
        omega
      · rw [heq] at ihc ⊢
        rw [List.chain'_cons]
        refine ⟨?_, ihc⟩
        have hBfalse : overlapsB current next_entity = false :=
          Bool.eq_false_iff.mpr h
        rcases (overlapsB_eq_false_iff current next_entity).mp hBfalse with hA | hB
        · rw [overlapsB_eq_false_iff]
          left
          omega
        · have : m = next_entity := hminv (by omega)
          rw [this, overlapsB_eq_false_iff]
          right
          exact hB

/-- Sweeping a list whose consecutive elements never overlap returns it
unchanged. -/
theorem mergeSweep_of_chain (current : PIIEntity) (xs : List PIIEntity)
    (h : List.Chain' (fun a b => overlapsB a b = false) (current :: xs)) :
    mergeSweep current xs = current :: xs := by
  induction xs generalizing current with
  | nil => rfl
  | cons next_entity rest ih =>
    rw [List.chain'_cons] at h
    simp only [mergeSweep]
    rw [if_neg (by simp [h.1]), ih next_entity h.2]

/-- `_merge_entities` always returns a list that is sorted by `start` with
consecutive entries never overlapping. -/
theorem mergeEntities_sorted_chain (entities : List PIIEntity) :
    List.Sorted startLe (mergeEntities entities)
    ∧ List.Chain' (fun a b => overlapsB a b = false) (mergeEntities entities) := by
  unfold mergeEntities
  cases hs : List.insertionSort startLe entities with
  | nil => constructor <;> simp
  | cons first rest =>
    have hsorted : List.Sorted startLe (first :: rest) := by
      rw [← hs]; exact List.sorted_insertionSort startLe entities
    exact mergeSweep_sorted_chain first rest hsorted

/-- `_merge_entities` is the identity on any list that is already sorted
with consecutive entries never overlapping. -/
theorem mergeEntities_eq_self_of (M : List PIIEntity)
    (hMs : List.Sorted startLe M)
    (hMc : List.Chain' (fun a b => overlapsB a b = false) M) :
    mergeEntities M = M := by
  unfold mergeEntities
  rw [hMs.insertionSort_eq]
  cases M with
  | nil => rfl
  | cons f r => exact mergeSweep_of_chain f r hMc

/-- Re-merging the merge output returns it unchanged (entirely, not just
its spans). -/
theorem mergeEntities_idem (entities : List PIIEntity) :
    mergeEntities (mergeEntities entities) = mergeEntities entities :=
  mergeEntities_eq_self_of (mergeEntities entities)
    (mergeEntities_sorted_chain entities).1
    (mergeEntities_sorted_chain entities).2

/-! ## C6: idempotence of merge -/

/-- C6: merge is idempotent: feeding the output of `_merge_entities` back in
as candidates yields the same `[start, end)` span list (indeed the very same
entity list) — re-merging already-merged entities changes nothing. -/
theorem merge_idempotent (candidates : List PIIEntity) :
    (mergeEntities (mergeEntities candidates)).map (fun e => (e.start, e.«end»))
      = (mergeEntities candidates).map (fun e => (e.start, e.«end»)) := by
  rw [mergeEntities_idem]

/-! ## Span-validity lemmas for the fusion sweep (C1) -/

/-- With valid input spans, every sweep output span is valid. -/
theorem mergeSweep_valid (current : PIIEntity) (xs : List PIIEntity)
    (hc : current.start ≤ current.«end»)
    (hxs : ∀ x ∈ xs, x.start ≤ x.«end») :
    ∀ m ∈ mergeSweep current xs, m.start ≤ m.«end» := by
  induction xs generalizing current with
  | nil =>
    intro m hm
    rw [List.mem_singleton.mp hm]
    exact hc
  | cons next_entity rest ih =>
    simp only [mergeSweep]
    by_cases h : overlapsB current next_entity
    · rw [if_pos h]
      refine ih (mergeTwo current next_entity) ?_
        (fun x hx => hxs x (List.mem_cons_of_mem _ hx))
      rw [mergeTwo_start, mergeTwo_end]
      exact le_trans (le_trans (min_le_left _ _) hc) (le_max_left _ _)
    · rw [if_neg h]
      intro m hm
      rcases List.mem_cons.mp hm with rfl | hm'
      · exact hc
      · exact ih next_entity (hxs next_entity (List.mem_cons_self _ _))
          (fun x hx => hxs x (List.mem_cons_of_mem _ hx)) m hm'

/-- With valid input spans, consecutive sweep outputs are separated by a
strict gap (`a.end < b.start`). -/
theorem mergeSweep_strict_chain (current : PIIEntity) (xs : List PIIEntity)
    (hsort : List.Sorted startLe (current :: xs))
    (hval : ∀ x ∈ current :: xs, x.start ≤ x.«end») :
    List.Chain' (fun a b => a.«end» < b.start) (mergeSweep current xs) := by
  induction xs generalizing current with
  | nil => simp [mergeSweep]
  | cons next_entity rest ih =>
    rw [List.sorted_cons] at hsort
    obtain ⟨hall, hsort'⟩ := hsort
    simp only [mergeSweep]
    by_cases h : overlapsB current next_entity
    · rw [if_pos h]
      apply ih (mergeTwo current next_entity)
      · rw [List.sorted_cons]
        refine ⟨?_, (List.sorted_cons.mp hsort').2⟩
        intro b hb
        have h1 : next_entity.start ≤ b.start := (List.sorted_cons.mp hsort').1 b hb
        show (mergeTwo current next_entity).start ≤ b.start
        rw [mergeTwo_start]
        exact le_trans (min_le_right _ _) h1
      · intro x hx
        rcases List.mem_cons.mp hx with rfl | hx'
        · rw [mergeTwo_start, mergeTwo_end]
          have hcv : current.start ≤ current.«end» :=
            hval current (List.mem_cons_self _ _)
          exact le_trans (le_trans (min_le_left _ _) hcv) (le_max_left _ _)
        · exact hval x (List.mem_cons_of_mem _ (List.mem_cons_of_mem _ hx'))
    · rw [if_neg h]
      obtain ⟨m, tail, heq, hmstart, hmend, hminv⟩ :=
        mergeSweep_head next_entity rest (fun x hx =>
          (List.sorted_cons.mp hsort').1 x hx)
      have hcn : current.start ≤ next_entity.start :=
        hall next_entity (List.mem_cons_self _ _)
      have hnv : next_entity.start ≤ next_entity.«end» :=
        hval next_entity (List.mem_cons_of_mem _ (List.mem_cons_self _ _))
      rw [heq, List.chain'_cons]
      have hBfalse : overlapsB current next_entity = false := Bool.eq_false_iff.mpr h
      refine ⟨?_, by
        rw [← heq]
        exact ih next_entity hsort' (fun x hx => hval x (List.mem_cons_of_mem _ hx))⟩
      rcases (overlapsB_eq_false_iff current next_entity).mp hBfalse with hA | hB
      · omega
      · omega

/-- Every input to the sweep is covered by some output span. -/
theorem mergeSweep_covers (current : PIIEntity) (xs : List PIIEntity)
    (hsort : List.Sorted startLe (current :: xs)) :
    ∀ c ∈ current :: xs, ∃ m ∈ mergeSweep current xs,
      m.start ≤ c.start ∧ c.«end» ≤ m.«end» := by
  induction xs generalizing current with
  | nil =>
    intro c hc
    rw [List.mem_singleton.mp hc]
    exact ⟨current, List.mem_cons_self _ _, le_refl _, le_refl _⟩
  | cons next_entity rest ih =>
    rw [List.sorted_cons] at hsort
    obtain ⟨hall, hsort'⟩ := hsort
    simp only [mergeSweep]
    by_cases h : overlapsB current next_entity
    · rw [if_pos h]
      have hsorted2 : List.Sorted startLe (mergeTwo current next_entity :: rest) := by
        rw [List.sorted_cons]
        refine ⟨?_, (List.sorted_cons.mp hsort').2⟩
        intro b hb
        show (mergeTwo current next_entity).start ≤ b.start
        rw [mergeTwo_start]
        exact le_trans (min_le_right _ _) ((List.sorted_cons.mp hsort').1 b hb)
      intro c hc
      obtain ⟨m, tail, heq, hmstart, hmend, -⟩ :=
        mergeSweep_head (mergeTwo current next_entity) rest (fun x hx => by
          rw [mergeTwo_start]
          exact le_trans (min_le_right _ _) ((List.sorted_cons.mp hsort').1 x hx))
      rcases List.mem_cons.mp hc with rfl | hc'
      · refine ⟨m, by rw [heq]; exact List.mem_cons_self _ _, ?_, ?_⟩
        · rw [hmstart, mergeTwo_start]
          exact min_le_left _ _
        · refine le_trans ?_ hmend
          rw [mergeTwo_end]
          exact le_max_left _ _
      rcases List.mem_cons.mp hc' with rfl | hc''
      · refine ⟨m, by rw [heq]; exact List.mem_cons_self _ _, ?_, ?_⟩
        · rw [hmstart, mergeTwo_start]
          exact min_le_right _ _
        · refine le_trans ?_ hmend
          rw [mergeTwo_end]
          exact le_max_right _ _
      · exact ih (mergeTwo current next_entity) hsorted2 c (List.mem_cons_of_mem _ hc'')
    · rw [if_neg h]
      intro c hc
      rcases List.mem_cons.mp hc with rfl | hc'
      · exact ⟨c, List.mem_cons_self _ _, le_refl _, le_refl _⟩
      · obtain ⟨m, hm, h1, h2⟩ := ih next_entity hsort' c hc'
        exact ⟨m, List.mem_cons_of_mem _ hm, h1, h2⟩

/-- With valid input spans, the merge output has a strict gap between
consecutive entries and every output span is valid. -/
theorem mergeEntities_strict_chain (candidates : List PIIEntity)
    (hval : ∀ c ∈ candidates, c.start ≤ c.«end») :
    List.Chain' (fun a b => a.«end» < b.start) (mergeEntities candidates)
    ∧ (∀ m ∈ mergeEntities candidates, m.start ≤ m.«end») := by
  unfold mergeEntities
  cases hs : List.insertionSort startLe candidates with
  | nil => constructor <;> simp
  | cons first rest =>
    have hsorted : List.Sorted startLe (first :: rest) := by
      rw [← hs]; exact List.sorted_insertionSort startLe candidates
    have hp := List.perm_insertionSort startLe candidates
    rw [hs] at hp
    have hvalS : ∀ x ∈ first :: rest, x.start ≤ x.«end» := fun x hx =>
      hval x (hp.mem_iff.mp hx)
    exact ⟨mergeSweep_strict_chain first rest hsorted hvalS,
      mergeSweep_valid first rest (hvalS first (List.mem_cons_self _ _))
        (fun x hx => hvalS x (List.mem_cons_of_mem _ hx))⟩

/-- Every input candidate is covered by some merge output span. -/
theorem mergeEntities_covers (candidates : List PIIEntity) :
    ∀ c ∈ candidates, ∃ m ∈ mergeEntities candidates,
      m.start ≤ c.start ∧ c.«end» ≤ m.«end» := by
  unfold mergeEntities
  cases hs : List.insertionSort startLe candidates with
  | nil =>
    intro c hc
    have hp := List.perm_insertionSort startLe candidates
    rw [hs] at hp
    rw [List.Perm.eq_nil hp.symm] at hc
    exact absurd hc (List.not_mem_nil c)
  | cons first rest =>
    intro c hc
    have hsorted : List.Sorted startLe (first :: rest) := by
      rw [← hs]; exact List.sorted_insertionSort startLe candidates
    have hp := List.perm_insertionSort startLe candidates
    rw [hs] at hp
    exact mergeSweep_covers first rest hsorted c (hp.mem_iff.mpr hc)

/-- On a list of valid spans, a consecutive strict gap extends to all pairs
in list order. -/
theorem pairwise_gap_of_chain :
    ∀ (M : List PIIEntity), List.Chain' (fun a b => a.«end» < b.start) M →
      (∀ m ∈ M, m.start ≤ m.«end») →
      List.Pairwise (fun a b => a.«end» < b.start) M := by
  intro M
  induction M with
  | nil => intro _ _; exact List.Pairwise.nil
  | cons a M' ih =>
    intro hc hv
    cases M' with
    | nil => exact List.pairwise_singleton _ a
    | cons b M'' =>
      rw [List.chain'_cons] at hc
      have hp' := ih hc.2 (fun m hm => hv m (List.mem_cons_of_mem _ hm))
      refine List.Pairwise.cons ?_ hp'
      intro c hcM
      have h1 := hc.1
      rcases List.mem_cons.mp hcM with rfl | hcM'
      · exact h1
      · have hbc : b.«end» < c.start := (List.pairwise_cons.mp hp').1 c hcM'
        have hbv : b.start ≤ b.«end» :=
          hv b (List.mem_cons_of_mem _ (List.mem_cons_self _ _))
        omega

/-! ## C1: merge output is sorted, non-overlapping, and exactly partitions
the input candidates -/

/-- C1: for every candidate list (whose spans satisfy the candidate
invariant `start <= end`), the merge output is sorted ascending by `start`;
any two merged entities `a`, `b` with `a.start < b.start` satisfy
`a.end <= b.start` (pairwise non-overlap); and every input candidate's
`[start, end)` span is contained in the span of exactly one merged
entity. -/
theorem merge_partition_invariants (candidates : List PIIEntity)
    (hval : ∀ c ∈ candidates, c.start ≤ c.«end») :
    List.Sorted startLe (mergeEntities candidates)
    ∧ (∀ a ∈ mergeEntities candidates, ∀ b ∈ mergeEntities candidates,
        a.start < b.start → a.«end» ≤ b.start)
    ∧ ∀ c ∈ candidates, ∃ m ∈ mergeEntities candidates,
        (m.start ≤ c.start ∧ c.«end» ≤ m.«end»)
        ∧ ∀ m' ∈ mergeEntities candidates,
            m'.start ≤ c.start → c.«end» ≤ m'.«end» → m' = m := by
  obtain ⟨hchain, hvalM⟩ := mergeEntities_strict_chain candidates hval
  have hsorted := (mergeEntities_sorted_chain candidates).1
  have hpair : List.Pairwise (fun a b => a.«end» < b.start)
      (mergeEntities candidates) :=
    pairwise_gap_of_chain _ hchain hvalM
  have hsym : Symmetric (fun x y : PIIEntity =>
      x = y ∨ x.«end» < y.start ∨ y.«end» < x.start) := by
    intro x y hxy
    rcases hxy with rfl | hg | hg
    · exact Or.inl rfl
    · exact Or.inr (Or.inr hg)
    · exact Or.inr (Or.inl hg)
  have hPU : List.Pairwise (fun x y : PIIEntity =>
      x = y ∨ x.«end» < y.start ∨ y.«end» < x.start) (mergeEntities candidates) :=
    hpair.imp (fun hg => Or.inr (Or.inl hg))
  have hU : ∀ a ∈ mergeEntities candidates, ∀ b ∈ mergeEntities candidates,
      a = b ∨ a.«end» < b.start ∨ b.«end» < a.start := by
    intro a ha b hb
    exact List.Pairwise.forall_of_forall hsym (fun x _ => Or.inl rfl) hPU ha hb
  refine ⟨hsorted, ?_, ?_⟩
  · intro a ha b hb hab
    rcases hU a ha b hb with rfl | hg | hg
    · omega
    · exact le_of_lt hg
    · have hbv := hvalM b hb
      omega
  · intro c hc
    obtain ⟨m, hm, h1, h2⟩ := mergeEntities_covers candidates c hc
    refine ⟨m, hm, ⟨h1, h2⟩, ?_⟩
    intro m' hm' h1' h2'
    have hcv := hval c hc
    rcases hU m' hm' m hm with h | hg | hg
    · exact h
    · omega
    · omega

/-- Witness for C1 at a concrete three-candidate list (two overlapping
person candidates and one separate ssn candidate). -/
theorem merge_partition_invariants_witness :
    (∀ c ∈ [currentSample, nextSample, ssnEntity], c.start ≤ c.«end»)
    ∧ (List.Sorted startLe (mergeEntities [currentSample, nextSample, ssnEntity])
      ∧ (∀ a ∈ mergeEntities [currentSample, nextSample, ssnEntity],
          ∀ b ∈ mergeEntities [currentSample, nextSample, ssnEntity],
            a.start < b.start → a.«end» ≤ b.start)
      ∧ ∀ c ∈ [currentSample, nextSample, ssnEntity],
          ∃ m ∈ mergeEntities [currentSample, nextSample, ssnEntity],
            (m.start ≤ c.start ∧ c.«end» ≤ m.«end»)
            ∧ ∀ m' ∈ mergeEntities [currentSample, nextSample, ssnEntity],
                m'.start ≤ c.start → c.«end» ≤ m'.«end» → m' = m) :=
  ⟨by decide, merge_partition_invariants [currentSample, nextSample, ssnEntity]
    (by decide)⟩

/-! ## C5: offset safety of the substitution loop -/

/-- The text-buffer update of one `anonymize_text` iteration: splice the
replacement in at the entity's `[start, end)` span, or leave the buffer
alone when the strategy yields no replacement. -/
def substituteEntity (md5hex : List Char → List Char) (strategy : List Char)
    (acc : List Char) (entity : PIIEntity) : List Char :=
  match anonymizeValue md5hex strategy entity with
  | some a => replaceSlice acc entity.start entity.«end» a
  | none => acc

/-- Length contributed by an entity's substitution: the replacement's length
when there is one, the untouched span's length otherwise. -/
def replacementLen (md5hex : List Char → List Char) (strategy : List Char)
    (e : PIIEntity) : Nat :=
  match anonymizeValue md5hex strategy e with
  | some a => a.length
  | none => e.«end» - e.start

/-- Spec-side rendering of the substituted text: entities in ascending
`start` order, offsets absolute into the original text `t`; every gap
between spans is copied unchanged from `t`, and each entity's span is
replaced by its replacement (or kept verbatim when there is none). -/
def renderedText (md5hex : List Char → List Char) (strategy : List Char)
    (t : List Char) : List PIIEntity → Nat → List Char
  | [], p => t.drop p
  | e :: rest, p =>
    (t.take e.start).drop p
      ++ ((match anonymizeValue md5hex strategy e with
           | some a => a
           | none => (t.take e.«end»).drop e.start)
          ++ renderedText md5hex strategy t rest e.«end»)

/-- Splitting a suffix of a list at an intermediate point. -/
theorem drop_take_drop (X : List Char) (p q : Nat) (hpq : p ≤ q)
    (hq : q ≤ X.length) :
    (X.take q).drop p ++ X.drop q = X.drop p := by
  conv_rhs => rw [← List.take_append_drop q X]
  rw [List.drop_append_of_le_length (by simp [List.length_take]; omega)]

/-- The rendering from `p` factors through any intermediate point `q` lying
before the first entity. -/
theorem renderedText_split (md5hex : List Char → List Char) (strategy : List Char)
    (t : List Char) (es : List PIIEntity) (p q : Nat) (hpq : p ≤ q)
    (hqt : q ≤ t.length)
    (hhead : ∀ f, es.head? = some f → q ≤ f.start ∧ f.start ≤ t.length) :
    renderedText md5hex strategy t es p
      = (t.take q).drop p ++ renderedText md5hex strategy t es q := by
  cases es with
  | nil =>
    simp only [renderedText]
    exact (drop_take_drop t p q hpq hqt).symm
  | cons e rest =>
    obtain ⟨h1, h2⟩ := hhead e (by rw [List.head?_cons])
    simp only [renderedText]
    conv_rhs => rw [← List.append_assoc]
    congr 1
    have h3 : (t.take e.start).take q = t.take q := by
      rw [List.take_take]
      congr 1
      omega
    rw [← h3]
    refine (drop_take_drop (t.take e.start) p q hpq ?_).symm
    rw [List.length_take]
    omega

/-- The rendering of an ascending entity list keeps the original text on any
initial segment ending before the first entity. -/
theorem renderedText_take (md5hex : List Char → List Char) (strategy : List Char)
    (t : List Char) (rest : List PIIEntity) (s : Nat) (_hs : s ≤ t.length)
    (hhead : ∀ f, rest.head? = some f → s ≤ f.start ∧ f.start ≤ t.length) :
    (renderedText md5hex strategy t rest 0).take s = t.take s := by
  cases rest with
  | nil => simp [renderedText]
  | cons f r' =>
    obtain ⟨h1, h2⟩ := hhead f (by rw [List.head?_cons])
    simp only [renderedText, List.drop_zero]
    rw [List.take_append_of_le_length (by rw [List.length_take]; omega)]
    rw [List.take_take]
    congr 1
    omega

/-- Dropping up to a point before the first entity re-bases the rendering. -/
theorem renderedText_drop (md5hex : List Char → List Char) (strategy : List Char)
    (t : List Char) (rest : List PIIEntity) (q : Nat) (hq : q ≤ t.length)
    (hhead : ∀ f, rest.head? = some f → q ≤ f.start ∧ f.start ≤ t.length) :
    (renderedText md5hex strategy t rest 0).drop q
      = renderedText md5hex strategy t rest q := by
  rw [renderedText_split md5hex strategy t rest 0 q (Nat.zero_le q) hq hhead,
    List.drop_zero]
  rw [List.drop_append_of_le_length (by rw [List.length_take]; omega)]
  rw [List.drop_eq_nil_of_le (by rw [List.length_take]; omega), List.nil_append]

/-- Applying the substitutions right-to-left over an ascending,
non-overlapping, in-bounds entity list produces exactly the spec-side
rendering: every gap between entity spans is preserved verbatim and each
replacement lands at its own span. -/
theorem foldr_subst_eq_rendered (md5hex : List Char → List Char)
    (strategy : List Char) (t : List Char) :
    ∀ (asc : List PIIEntity),
      List.Chain' (fun a b => a.«end» ≤ b.start) asc →
      (∀ e ∈ asc, e.start ≤ e.«end» ∧ e.«end» ≤ t.length) →
      asc.foldr (fun e acc => substituteEntity md5hex strategy acc e) t
        = renderedText md5hex strategy t asc 0 := by
  intro asc
  induction asc with
  | nil => intro _ _; rfl
  | cons e rest ih =>
    intro hchain hval
    have he := hval e (List.mem_cons_self _ _)
    have hrest : ∀ x ∈ rest, x.start ≤ x.«end» ∧ x.«end» ≤ t.length :=
      fun x hx => hval x (List.mem_cons_of_mem _ hx)
    have hh2 : ∀ f, rest.head? = some f →
        e.«end» ≤ f.start ∧ f.start ≤ t.length := by
      intro f hf
      cases rest with
      | nil => simp at hf
      | cons f' r' =>
        rw [List.head?_cons] at hf
        cases hf
        have hfv := hrest f (List.mem_cons_self _ _)
        exact ⟨(List.chain'_cons.mp hchain).1, le_trans hfv.1 hfv.2⟩
    have hh1 : ∀ f, rest.head? = some f →
        e.start ≤ f.start ∧ f.start ≤ t.length := by
      intro f hf
      obtain ⟨ha, hb⟩ := hh2 f hf
      exact ⟨le_trans he.1 ha, hb⟩
    have ihA := ih hchain.tail hrest
    rw [List.foldr_cons, ihA]
    show substituteEntity md5hex strategy (renderedText md5hex strategy t rest 0) e
        = renderedText md5hex strategy t (e :: rest) 0
    unfold substituteEntity
    cases hv : anonymizeValue md5hex strategy e with
    | some a =>
      simp only [renderedText, hv, List.drop_zero]
      unfold replaceSlice
      rw [renderedText_take md5hex strategy t rest e.start (le_trans he.1 he.2) hh1,
        renderedText_drop md5hex strategy t rest e.«end» he.2 hh2,
        List.append_assoc]
    | none =>
      simp only [renderedText, hv, List.drop_zero]
      rw [renderedText_split md5hex strategy t rest 0 e.«end» (Nat.zero_le _)
          he.2 hh2, List.drop_zero]
      conv_rhs => rw [← List.append_assoc]
      congr 1
      have h3 : (t.take e.«end»).take e.start = t.take e.start := by
        rw [List.take_take]
        congr 1
        omega
      rw [← h3]
      exact (List.take_append_drop e.start (t.take e.«end»)).symm

/-- Length of the spec-side rendering: original length, minus the summed
span lengths, plus the summed replacement lengths. -/
theorem renderedText_length (md5hex : List Char → List Char)
    (strategy : List Char) (t : List Char) :
    ∀ (asc : List PIIEntity) (p : Nat),
      List.Chain' (fun a b => a.«end» ≤ b.start) asc →
      (∀ e ∈ asc, e.start ≤ e.«end» ∧ e.«end» ≤ t.length) →
      p ≤ t.length →
      (∀ f, asc.head? = some f → p ≤ f.start) →
      (renderedText md5hex strategy t asc p).length
          + (asc.map (fun e => e.«end» - e.start)).sum
        = (t.length - p) + (asc.map (replacementLen md5hex strategy)).sum := by
  intro asc
  induction asc with
  | nil =>
    intro p _ _ _ _
    simp [renderedText, List.length_drop]
  | cons e rest ih =>
    intro p hchain hval hpt hphead
    have he := hval e (List.mem_cons_self _ _)
    have hpe : p ≤ e.start := hphead e (by rw [List.head?_cons])
    have hrest : ∀ x ∈ rest, x.start ≤ x.«end» ∧ x.«end» ≤ t.length :=
      fun x hx => hval x (List.mem_cons_of_mem _ hx)
    have hhead : ∀ f, rest.head? = some f → e.«end» ≤ f.start := by
      intro f hf
      cases rest with
      | nil => simp at hf
      | cons f' r' =>
        rw [List.head?_cons] at hf
        cases hf
        exact (List.chain'_cons.mp hchain).1
    have ihA := ih e.«end» hchain.tail hrest he.2 hhead
    simp only [renderedText, List.map_cons, List.sum_cons, List.length_append]
    have l1 : ((t.take e.start).drop p).length = e.start - p := by
      rw [List.length_drop, List.length_take]
      omega
    cases hv : anonymizeValue md5hex strategy e with
    | some a =>
      have hrepl : replacementLen md5hex strategy e = a.length := by
        unfold replacementLen
        rw [hv]
      simp only [hv, hrepl]
      omega
    | none =>
      have hrepl : replacementLen md5hex strategy e = e.«end» - e.start := by
        unfold replacementLen
        rw [hv]
      have l2 : ((t.take e.«end»).drop e.start).length = e.«end» - e.start := by
        rw [List.length_drop, List.length_take]
        omega
      simp only [hv, hrepl]
      omega

/-- The text component of the anonymization fold ignores the mapping
component. -/
theorem foldl_anonymizeStep_text (md5hex : List Char → List Char)
    (strategy : List Char) :
    ∀ (ds : List PIIEntity) (t0 : List Char) (m0 : Mapping),
      (ds.foldl (anonymizeStep md5hex strategy) (t0, m0)).1
        = ds.foldl (substituteEntity md5hex strategy) t0 := by
  intro ds
  induction ds with
  | nil => intro t0 m0; rfl
  | cons e rest ih =>
    intro t0 m0
    rw [List.foldl_cons, List.foldl_cons, ih]
    congr 1

/-- A left fold of the substitutions is a right fold over the reversed
processing order. -/
theorem foldl_subst_eq_foldr (md5hex : List Char → List Char)
    (strategy : List Char) (ds : List PIIEntity) (t : List Char) :
    ds.foldl (substituteEntity md5hex strategy) t
      = ds.reverse.foldr (fun e acc => substituteEntity md5hex strategy acc e) t := by
  rw [List.foldr_reverse]

/-- C5: offset safety of the substitution loop.  For any pairwise
non-overlapping, in-bounds entity list, the text produced by
`anonymize_text` (which processes entities in descending-`start` order by
direct slice replacement) equals the spec-side rendering — so no
substitution touches any other entity's span or any gap — and its length is
the original length minus the summed span lengths plus the summed
replacement lengths. -/
theorem anonymize_offset_safety (md5hex : List Char → List Char)
    (strategy : List Char) (t : List Char) (entities : List PIIEntity)
    (hval : ∀ e ∈ entities, e.start < e.«end» ∧ e.«end» ≤ t.length)
    (hdisj : entities.Pairwise
      (fun a b => a.«end» ≤ b.start ∨ b.«end» ≤ a.start)) :
    (anonymizeText md5hex t entities strategy).1
      = renderedText md5hex strategy t
          (List.insertionSort startGe entities).reverse 0
    ∧ (anonymizeText md5hex t entities strategy).1.length
        + (entities.map (fun e => e.«end» - e.start)).sum
      = t.length + (entities.map (replacementLen md5hex strategy)).sum := by
  have hperm : List.Perm (List.insertionSort startGe entities) entities :=
    List.perm_insertionSort startGe entities
  have hsorted : List.Pairwise startGe (List.insertionSort startGe entities) :=
    List.sorted_insertionSort startGe entities
  have hsymm : ∀ {x y : PIIEntity},
      (x.«end» ≤ y.start ∨ y.«end» ≤ x.start)
        → (y.«end» ≤ x.start ∨ x.«end» ≤ y.start) :=
    fun h => h.symm
  have hdisj2 : (List.insertionSort startGe entities).Pairwise
      (fun a b => a.«end» ≤ b.start ∨ b.«end» ≤ a.start) :=
    (hperm.pairwise_iff hsymm).mpr hdisj
  have hvalds : ∀ e ∈ List.insertionSort startGe entities,
      e.start < e.«end» ∧ e.«end» ≤ t.length :=
    fun e he => hval e (hperm.subset he)
  have hchain_ds : (List.insertionSort startGe entities).Chain'
      (fun a b => b.«end» ≤ a.start) := by
    apply List.Pairwise.chain'
    refine (hsorted.and hdisj2).imp_of_mem ?_
    intro a b ha hb hab
    rcases hab.2 with h | h
    · have hv := hvalds a ha
      have hba : b.start ≤ a.start := hab.1
      omega
    · exact h
  have hchain_asc : (List.insertionSort startGe entities).reverse.Chain'
      (fun a b => a.«end» ≤ b.start) := by
    rw [List.chain'_reverse]
    exact hchain_ds
  have hval_asc : ∀ e ∈ (List.insertionSort startGe entities).reverse,
      e.start ≤ e.«end» ∧ e.«end» ≤ t.length := by
    intro e he
    have h := hvalds e (List.mem_reverse.mp he)
    exact ⟨le_of_lt h.1, h.2⟩
  have htext : (anonymizeText md5hex t entities strategy).1
      = renderedText md5hex strategy t
          (List.insertionSort startGe entities).reverse 0 := by
    show ((List.insertionSort startGe entities).foldl
        (anonymizeStep md5hex strategy) (t, fun _ => none)).1 = _
    rw [foldl_anonymizeStep_text, foldl_subst_eq_foldr,
      foldr_subst_eq_rendered md5hex strategy t _ hchain_asc hval_asc]
  refine ⟨htext, ?_⟩
  have hlen := renderedText_length md5hex strategy t
      (List.insertionSort startGe entities).reverse 0 hchain_asc hval_asc
      (Nat.zero_le _) (fun f _ => Nat.zero_le _)
  rw [htext]
  have hperm2 : List.Perm (List.insertionSort startGe entities).reverse entities :=
    (List.reverse_perm _).trans hperm
  have hsum1 : ((List.insertionSort startGe entities).reverse.map
        (fun e => e.«end» - e.start)).sum
      = (entities.map (fun e => e.«end» - e.start)).sum :=
    (hperm2.map _).sum_eq
  have hsum2 : ((List.insertionSort startGe entities).reverse.map
        (replacementLen md5hex strategy)).sum
      = (entities.map (replacementLen md5hex strategy)).sum :=
    (hperm2.map _).sum_eq
  omega

/-- A second sample entity, disjoint from `currentSample`, for the C5
witness. -/
def tailSample : PIIEntity :=
  { entity_type := "other".data, text := "now".data, start := 19, «end» := 22,
    confidence := 0.8, source := "regex".data }

/-- Witness for C5 at a concrete text and two disjoint entities. -/
theorem anonymize_offset_safety_witness :
    ((∀ e ∈ [currentSample, tailSample],
        e.start < e.«end» ∧ e.«end» ≤ ("Contact John Smith now.".data).length)
      ∧ List.Pairwise (fun a b => a.«end» ≤ b.start ∨ b.«end» ≤ a.start)
          [currentSample, tailSample])
    ∧ ((anonymizeText (fun _ => []) ("Contact John Smith now.".data)
          [currentSample, tailSample] ("placeholder".data)).1
        = renderedText (fun _ => []) ("placeholder".data)
            ("Contact John Smith now.".data)
            (List.insertionSort startGe [currentSample, tailSample]).reverse 0
      ∧ (anonymizeText (fun _ => []) ("Contact John Smith now.".data)
            [currentSample, tailSample] ("placeholder".data)).1.length
          + ([currentSample, tailSample].map (fun e => e.«end» - e.start)).sum
        = ("Contact John Smith now.".data).length
          + ([currentSample, tailSample].map
              (replacementLen (fun _ => []) ("placeholder".data))).sum) :=
  ⟨⟨by decide, by decide⟩,
    anonymize_offset_safety (fun _ => []) ("placeholder".data)
      ("Contact John Smith now.".data) [currentSample, tailSample]
      (by decide) (by decide)⟩
